import Mathlib

/-!
Verification of the text-annotation and syntax-highlighting core of the
Ember-Hacks study-notes application, shallowly embedded from
`src/components/LessonView.tsx`.  JS strings are modelled as `List Char`;
the regex-cascade tokenizer of `SyntaxHighlightedText` is modelled rule by
rule with JavaScript regex matching semantics (leftmost position first,
then alternative order; greedy and lazy quantifiers resolved by hand for
each fixed pattern).
-/

namespace EmberHacks

/-- The backtick character (code 96), written via `Char.ofNat`. -/
def btick : Char := Char.ofNat 96

/-- The double-quote character (code 34). -/
def dquote : Char := Char.ofNat 34

/-- The single-quote character (code 39). -/
def squote : Char := Char.ofNat 39

/-- Left brace character (code 123). -/
def lbrace : Char := Char.ofNat 123

/-- Right brace character (code 125). -/
def rbrace : Char := Char.ofNat 125

/-- JS regex `\w`: `[A-Za-z0-9_]`. -/
def isWordChar (c : Char) : Bool := c.isAlphanum || c = '_'

/-- JS regex `\d`. -/
def isDigitChar (c : Char) : Bool := c.isDigit

/-- Line terminators excluded by JS regex `.` (the ASCII ones). -/
def isNewline (c : Char) : Bool := c = '\n' || c = '\r'

/-- JS whitespace as used by `\s` and `String.prototype.trim` (ASCII part). -/
def isJsSpace (c : Char) : Bool :=
  c = ' ' || c = '\t' || c = '\n' || c = '\r' || c = Char.ofNat 11 || c = Char.ofNat 12

/-- JS `String.prototype.trim`. -/
def jsTrim (l : List Char) : List Char :=
  ((l.dropWhile isJsSpace).reverse.dropWhile isJsSpace).reverse

/-- JS `text.substring(a, b)` for non-negative arguments: both clamped to
the length, swapped when out of order. -/
def jsSubstring (s : List Char) (a b : Nat) : List Char :=
  let a' := min a s.length
  let b' := min b s.length
  (s.take (max a' b')).drop (min a' b')

/-- The characters of `s` from index `a` (inclusive) to `b` (exclusive). -/
def slice (s : List Char) (a b : Nat) : List Char := (s.drop a).take (b - a)

/-! ## Tokenizer rule matchers (`SyntaxHighlightedText`, LessonView.tsx 247-326)

Each matcher takes the full text and a position (or just the suffix at the
position) and returns the length of `match[0]` when the corresponding regex
alternative of the master regex matches there. -/

/-- Position of the first occurrence of star-slash, as searched by the lazy
quantifier in the block-comment regex. -/
def findStarSlash : List Char → Option Nat
  | [] => none
  | c :: rest =>
    if c = '*' ∧ rest.head? = some '/' then some 0
    else (findStarSlash rest).map (· + 1)

/-- Rule 1, `(\/\/.*|\/\*[\s\S]*?\*\/)`: line comment to end of line, or lazy
block comment to the nearest star-slash. -/
def matchComment (t : List Char) : Option Nat :=
  match t with
  | '/' :: '/' :: rest => some (2 + (rest.takeWhile (fun c => !isNewline c)).length)
  | '/' :: '*' :: rest => (findStarSlash rest).map (fun m => m + 4)
  | _ => none

/-- Content length before the closing quote for a lazy `q.*?q` literal; fails
at a line terminator (JS `.` does not match one) or end of input. -/
def closeQuote (q : Char) : List Char → Option Nat
  | [] => none
  | c :: rest =>
    if c = q then some 0
    else if isNewline c then none
    else (closeQuote q rest).map (· + 1)

/-- One quoted alternative of rule 2. -/
def matchQuoted (q : Char) (t : List Char) : Option Nat :=
  match t with
  | [] => none
  | c :: rest => if c = q then (closeQuote q rest).map (fun m => m + 2) else none

/-- Rule 2, `(".*?"|'.*?'|[btick].*?[btick])`, alternatives in source order. -/
def matchString (t : List Char) : Option Nat :=
  match matchQuoted dquote t with
  | some n => some n
  | none =>
    match matchQuoted squote t with
    | some n => some n
    | none => matchQuoted btick t

/-- The keyword alternation of rule 3, in source order. -/
def keywords : List String :=
  ["public", "private", "protected", "static", "final", "void", "class",
   "interface", "enum", "extends", "implements", "new", "import", "package",
   "return", "if", "else", "for", "while", "do", "switch", "case", "break",
   "continue", "try", "catch", "finally", "throw", "throws", "const", "let",
   "var", "function", "async", "await", "export", "default", "int", "boolean",
   "double", "float", "true", "false", "null", "this", "from", "of", "in",
   "type", "instanceof", "delete", "yield"]

/-- The word-boundary assertion `\b` holding just before position `p`. -/
def boundaryBefore (s : List Char) (p : Nat) : Bool :=
  decide (p = 0) || !(isWordChar (s.getD (p - 1) ' '))

/-- Rule 3, `\b(keyword|...)\b`: since every keyword consists of word
characters, the alternation with both boundaries matches exactly when the
maximal word run starting at `p` is a keyword and `p` sits at a boundary. -/
def matchKeyword (s : List Char) (p : Nat) : Option Nat :=
  if boundaryBefore s p then
    let w := (s.drop p).takeWhile isWordChar
    if w ≠ [] ∧ String.mk w ∈ keywords then some w.length else none
  else none

/-- Rule 4, `\b(\d+\.?\d*)\b`, with the backtracking of the greedy
quantifiers against the trailing boundary resolved case by case: after the
maximal digit run `d` and a dot with fractional run `f`, the trailing `\b`
keeps `d.f` when the next character is non-word (or the end), keeps `d.`
when the next character is a word character (the boundary then sits after
the dot), and when `f` is empty and the next character is non-word (or the
end) the engine also backtracks the optional dot and matches `d` alone. -/
def matchNumber (s : List Char) (p : Nat) : Option Nat :=
  if boundaryBefore s p then
    let t := s.drop p
    let d := t.takeWhile isDigitChar
    if d = [] then none
    else
      match t.drop d.length with
      | [] => some d.length
      | '.' :: u =>
        let f := u.takeWhile isDigitChar
        match (u.drop f.length).head? with
        | none => if f = [] then some d.length else some (d.length + 1 + f.length)
        | some c =>
          if isWordChar c then some (d.length + 1)
          else if f = [] then some d.length
          else some (d.length + 1 + f.length)
      | c :: _ => if isWordChar c then none else some d.length
  else none

/-- Rule 5, `(\w+)(?=\s*\()`: a word run whose next non-whitespace character
is an opening parenthesis. -/
def matchFunction (t : List Char) : Option Nat :=
  let w := t.takeWhile isWordChar
  if w = [] then none
  else
    match ((t.drop w.length).dropWhile isJsSpace).head? with
    | some c => if c = '(' then some w.length else none
    | none => none

/-- Rule 6, `\b([A-Z][a-zA-Z0-9_]*)\b`. -/
def matchClassName (s : List Char) (p : Nat) : Option Nat :=
  if boundaryBefore s p then
    match s.drop p with
    | c :: _ =>
      if c.isUpper then some ((s.drop p).takeWhile isWordChar).length else none
    | [] => none
  else none

/-- The operator character class of rule 7. -/
def isOpChar (c : Char) : Bool :=
  c = '=' || c = '+' || c = '-' || c = '*' || c = '/' || c = '%' || c = '&' ||
  c = '|' || c = '<' || c = '>' || c = '!' || c = '^' || c = '~' || c = '?' ||
  c = ':' || c = '.'

/-- Rule 7, `([=+\-*/%&|<>!^~?:.]+)`. -/
def matchOperator (t : List Char) : Option Nat :=
  let r := t.takeWhile isOpChar
  if r = [] then none else some r.length

/-- The punctuation character class of rule 8. -/
def isPunctChar (c : Char) : Bool :=
  c = lbrace || c = rbrace || c = '(' || c = ')' || c = '[' || c = ']' ||
  c = '.' || c = ',' || c = ';'

/-- Rule 8, `([{}()\[\].,;])` (single character). -/
def matchPunct (t : List Char) : Option Nat :=
  match t with
  | c :: _ => if isPunctChar c then some 1 else none
  | [] => none

/-- Token classifications; `plain` is the unmatched-text fallback. -/
inductive TokKind where
  | comment | string | keyword | number | function | className
  | operator | punctuation | plain
deriving DecidableEq, Repr

/-- The master regex at one position: the first rule (in source precedence
order) whose alternative matches at `p`, with the length of `match[0]`. -/
def matchAt (s : List Char) (p : Nat) : Option (TokKind × Nat) :=
  match matchComment (s.drop p) with
  | some n => some (.comment, n)
  | none =>
  match matchString (s.drop p) with
  | some n => some (.string, n)
  | none =>
  match matchKeyword s p with
  | some n => some (.keyword, n)
  | none =>
  match matchNumber s p with
  | some n => some (.number, n)
  | none =>
  match matchFunction (s.drop p) with
  | some n => some (.function, n)
  | none =>
  match matchClassName s p with
  | some n => some (.className, n)
  | none =>
  match matchOperator (s.drop p) with
  | some n => some (.operator, n)
  | none =>
  match matchPunct (s.drop p) with
  | some n => some (.punctuation, n)
  | none => none

/-- `l` ends with the three characters of the word new
(JS `precedingText.endsWith('new')`). -/
def endsWithNew (l : List Char) : Bool :=
  decide (l.drop (l.length - 3) = ['n', 'e', 'w'])

/-- Whether the character at position `q` is uppercase
(JS `/^[A-Z]/.test(match[0])`, and `match[0]` starts at `q`). -/
def headUpper (s : List Char) (q : Nat) : Bool :=
  match s.drop q with
  | c :: _ => c.isUpper
  | [] => false

/-- The constructor heuristic of LessonView.tsx 284-292: a function-rule
match whose name starts uppercase gets the class-name styling when
`text.substring(0, match.index).trim().endsWith('new')`. -/
def reclassify (s : List Char) (q : Nat) (k : TokKind) : TokKind :=
  match k with
  | .function =>
    if headUpper s q ∧ endsWithNew (jsTrim (s.take q)) then .className else .function
  | k => k

/-- A token span emitted by the highlighter; `[start, stop)` into the text. -/
structure Token where
  start : Nat
  stop : Nat
  kind : TokKind
deriving DecidableEq, Repr

/-- `masterRegex.exec` from position `p` onward: the first position at or
after `p` where some rule matches (fuelled; `fuel = s.length - p` reaches
every position). -/
def findFromAux (s : List Char) : Nat → Nat → Option (Nat × TokKind × Nat)
  | _, 0 => none
  | p, fuel + 1 =>
    if p < s.length then
      match matchAt s p with
      | some (k, n) => some (p, k, n)
      | none => findFromAux s (p + 1) fuel
    else none

/-- The next master-regex match at or after position `p`. -/
def findFrom (s : List Char) (p : Nat) : Option (Nat × TokKind × Nat) :=
  findFromAux s p (s.length - p)

/-- The `while ((match = masterRegex.exec(text)) !== null)` loop: unmatched
text before a match and after the last match becomes `plain`; each match
becomes one classified token (fuelled; every step consumes at least one
character, so `s.length + 1` fuel suffices). -/
def scanAux (s : List Char) : Nat → Nat → List Token
  | _, 0 => []
  | p, fuel + 1 =>
    if p < s.length then
      match findFrom s p with
      | none => [⟨p, s.length, .plain⟩]
      | some (q, k, n) =>
        (if p < q then [⟨p, q, .plain⟩] else [])
          ++ ⟨q, q + n, reclassify s q k⟩ :: scanAux s (q + n) fuel
    else []

/-- `SyntaxHighlightedText`: the full token sequence for a text. -/
def tokenize (s : List Char) : List Token := scanAux s 0 (s.length + 1)

/-! ## Matcher bounds: every rule match is non-empty and in range -/

theorem takeWhile_length_le (p : Char → Bool) (l : List Char) :
    (l.takeWhile p).length ≤ l.length := by
  induction l with
  | nil => simp
  | cons c rest ih =>
    rw [List.takeWhile_cons]
    split
    · simpa using Nat.succ_le_succ ih
    · simp

theorem findStarSlash_bound (l : List Char) :
    ∀ m, findStarSlash l = some m → m + 2 ≤ l.length := by
  induction l with
  | nil => intro m h; simp [findStarSlash] at h
  | cons c rest ih =>
    intro m h
    simp only [findStarSlash] at h
    split at h
    · rename_i hcond
      obtain ⟨-, h2⟩ := hcond
      cases hm : findStarSlash rest <;> simp [Option.some_inj] at h
      all_goals
        cases rest with
        | nil => simp at h2
        | cons d r => simp only [List.length_cons]; omega
    · cases hm : findStarSlash rest with
      | none => rw [hm] at h; simp at h
      | some m' =>
        rw [hm] at h
        simp only [Option.map_some', Option.some_inj] at h
        have := ih m' hm
        simp only [List.length_cons]; omega

theorem matchComment_bound {t : List Char} {n : Nat} (h : matchComment t = some n) :
    0 < n ∧ n ≤ t.length := by
  unfold matchComment at h
  split at h
  · rename_i rest
    simp only [Option.some_inj] at h
    have := takeWhile_length_le (fun c => !isNewline c) rest
    simp only [List.length_cons]; omega
  · rename_i rest
    cases hm : findStarSlash rest with
    | none => rw [hm] at h; simp at h
    | some m =>
      rw [hm] at h
      simp only [Option.map_some', Option.some_inj] at h
      have := findStarSlash_bound rest m hm
      simp only [List.length_cons]; omega
  · exact absurd h (by simp)

theorem closeQuote_bound (q : Char) (l : List Char) :
    ∀ m, closeQuote q l = some m → m + 1 ≤ l.length := by
  induction l with
  | nil => intro m h; simp [closeQuote] at h
  | cons c rest ih =>
    intro m h
    simp only [closeQuote] at h
    split at h
    · simp only [Option.some_inj] at h
      simp only [List.length_cons]; omega
    · split at h
      · simp at h
      · cases hm : closeQuote q rest with
        | none => rw [hm] at h; simp at h
        | some m' =>
          rw [hm] at h
          simp only [Option.map_some', Option.some_inj] at h
          have := ih m' hm
          simp only [List.length_cons]; omega

theorem matchQuoted_bound {q : Char} {t : List Char} {n : Nat}
    (h : matchQuoted q t = some n) : 0 < n ∧ n ≤ t.length := by
  unfold matchQuoted at h
  split at h
  · exact absurd h (by simp)
  · rename_i c rest
    split at h
    · cases hm : closeQuote q rest with
      | none => rw [hm] at h; simp at h
      | some m =>
        rw [hm] at h
        simp only [Option.map_some', Option.some_inj] at h
        have := closeQuote_bound q rest m hm
        simp only [List.length_cons]; omega
    · exact absurd h (by simp)

theorem matchString_bound {t : List Char} {n : Nat} (h : matchString t = some n) :
    0 < n ∧ n ≤ t.length := by
  unfold matchString at h
  split at h
  · rename_i h1; simp only [Option.some_inj] at h; subst h; exact matchQuoted_bound h1
  · split at h
    · rename_i h2; simp only [Option.some_inj] at h; subst h; exact matchQuoted_bound h2
    · exact matchQuoted_bound h

theorem matchKeyword_bound {s : List Char} {p : Nat} {n : Nat}
    (h : matchKeyword s p = some n) : 0 < n ∧ n ≤ (s.drop p).length := by
  unfold matchKeyword at h
  dsimp only at h
  split at h
  · split at h
    · rename_i hcond
      simp only [Option.some_inj] at h
      subst h
      refine ⟨?_, takeWhile_length_le _ _⟩
      have := hcond.1
      cases hw : (s.drop p).takeWhile isWordChar with
      | nil => exact absurd hw this
      | cons a l => simp
    · exact absurd h (by simp)
  · exact absurd h (by simp)

theorem matchNumber_bound {s : List Char} {p : Nat} {n : Nat}
    (h : matchNumber s p = some n) : 0 < n ∧ n ≤ (s.drop p).length := by
  unfold matchNumber at h
  dsimp only at h
  split at h
  · split at h
    · exact absurd h (by simp)
    · rename_i hd
      have hdle := takeWhile_length_le isDigitChar (s.drop p)
      have hdpos : 0 < ((s.drop p).takeWhile isDigitChar).length := by
        cases hw : (s.drop p).takeWhile isDigitChar with
        | nil => exact absurd hw hd
        | cons a l => simp
      split at h
      · rename_i hrest
        simp only [Option.some_inj] at h
        have : ((s.drop p).drop ((s.drop p).takeWhile isDigitChar).length).length
            = (s.drop p).length - ((s.drop p).takeWhile isDigitChar).length :=
          List.length_drop _ _
        rw [hrest] at this
        simp only [List.length_nil] at this
        omega
      · rename_i u hrest
        have hu : ((s.drop p).drop ((s.drop p).takeWhile isDigitChar).length).length
            = (s.drop p).length - ((s.drop p).takeWhile isDigitChar).length :=
          List.length_drop _ _
        rw [hrest] at hu
        simp only [List.length_cons] at hu
        have hf := takeWhile_length_le isDigitChar u
        split at h
        · split at h <;> simp only [Option.some_inj] at h <;> omega
        · split at h
          · simp only [Option.some_inj] at h; omega
          · split at h <;> simp only [Option.some_inj] at h <;> omega
      · rename_i c l hrest
        have hu : ((s.drop p).drop ((s.drop p).takeWhile isDigitChar).length).length
            = (s.drop p).length - ((s.drop p).takeWhile isDigitChar).length :=
          List.length_drop _ _
        rw [hrest] at hu
        simp only [List.length_cons] at hu
        split at h
        · exact absurd h (by simp)
        · simp only [Option.some_inj] at h; omega
  · exact absurd h (by simp)

theorem matchFunction_bound {t : List Char} {n : Nat}
    (h : matchFunction t = some n) : 0 < n ∧ n ≤ t.length := by
  unfold matchFunction at h
  dsimp only at h
  split at h
  · exact absurd h (by simp)
  · rename_i hw
    split at h
    · split at h
      · simp only [Option.some_inj] at h
        subst h
        refine ⟨?_, takeWhile_length_le _ _⟩
        cases hw2 : t.takeWhile isWordChar with
        | nil => exact absurd hw2 hw
        | cons a l => simp
      · exact absurd h (by simp)
    · exact absurd h (by simp)

theorem matchClassName_bound {s : List Char} {p : Nat} {n : Nat}
    (h : matchClassName s p = some n) : 0 < n ∧ n ≤ (s.drop p).length := by
  unfold matchClassName at h
  split at h
  · split at h
    · rename_i c l hdrop
      split at h
      · rename_i hup
        simp only [Option.some_inj] at h
        subst h
        refine ⟨?_, takeWhile_length_le _ _⟩
        rw [hdrop, List.takeWhile_cons]
        have : isWordChar c = true := by
          simp [isWordChar, Char.isAlphanum, Char.isAlpha, hup]
        rw [this]
        simp
      · exact absurd h (by simp)
    · exact absurd h (by simp)
  · exact absurd h (by simp)

theorem matchOperator_bound {t : List Char} {n : Nat}
    (h : matchOperator t = some n) : 0 < n ∧ n ≤ t.length := by
  unfold matchOperator at h
  dsimp only at h
  split at h
  · exact absurd h (by simp)
  · rename_i hr
    simp only [Option.some_inj] at h
    subst h
    refine ⟨?_, takeWhile_length_le _ _⟩
    cases hw : t.takeWhile isOpChar with
    | nil => exact absurd hw hr
    | cons a l => simp

theorem matchPunct_bound {t : List Char} {n : Nat}
    (h : matchPunct t = some n) : 0 < n ∧ n ≤ t.length := by
  unfold matchPunct at h
  split at h
  · split at h
    · simp only [Option.some_inj] at h
      subst h
      simp only [List.length_cons]
      omega
    · exact absurd h (by simp)
  · exact absurd h (by simp)

theorem matchAt_bound {s : List Char} {p : Nat} {k : TokKind} {n : Nat}
    (h : matchAt s p = some (k, n)) : 0 < n ∧ p + n ≤ s.length := by
  have hd : (s.drop p).length = s.length - p := List.length_drop p s
  have key : 0 < n ∧ n ≤ (s.drop p).length := by
    unfold matchAt at h
    repeat' split at h
    all_goals (try exact Option.noConfusion h)
    all_goals (simp only [Option.some_inj, Prod.mk.injEq] at h; obtain ⟨-, hn⟩ := h; subst hn)
    all_goals
      first
      | exact matchComment_bound (by assumption)
      | exact matchString_bound (by assumption)
      | exact matchKeyword_bound (by assumption)
      | exact matchNumber_bound (by assumption)
      | exact matchFunction_bound (by assumption)
      | exact matchClassName_bound (by assumption)
      | exact matchOperator_bound (by assumption)
      | exact matchPunct_bound (by assumption)
  omega

/-! ## Scanner characterization -/

theorem findFromAux_some (s : List Char) :
    ∀ fuel p q k n, findFromAux s p fuel = some (q, k, n) →
      p ≤ q ∧ q < s.length ∧ matchAt s q = some (k, n) ∧
      ∀ r, p ≤ r → r < q → matchAt s r = none := by
  intro fuel
  induction fuel with
  | zero => intro p q k n h; simp [findFromAux] at h
  | succ fuel ih =>
    intro p q k n h
    rw [findFromAux] at h
    split at h
    · rename_i hp
      split at h
      · rename_i k' n' hm
        simp only [Option.some_inj, Prod.mk.injEq] at h
        obtain ⟨hq, hk, hn⟩ := h
        subst hq; subst hk; subst hn
        exact ⟨le_refl _, hp, hm, fun r h1 h2 => by omega⟩
      · rename_i hm
        obtain ⟨h1, h2, h3, h4⟩ := ih (p + 1) q k n h
        refine ⟨by omega, h2, h3, ?_⟩
        intro r hr1 hr2
        rcases Nat.eq_or_lt_of_le hr1 with rfl | hr
        · exact hm
        · exact h4 r hr hr2
    · exact Option.noConfusion h

theorem findFromAux_none (s : List Char) :
    ∀ fuel p, findFromAux s p fuel = none → s.length - p ≤ fuel →
      ∀ r, p ≤ r → r < s.length → matchAt s r = none := by
  intro fuel
  induction fuel with
  | zero => intro p h hf r h1 h2; omega
  | succ fuel ih =>
    intro p h hf r h1 h2
    rw [findFromAux] at h
    split at h
    · split at h
      · exact Option.noConfusion h
      · rename_i hm
        rcases Nat.eq_or_lt_of_le h1 with rfl | hr
        · exact hm
        · exact ih (p + 1) h (by omega) r (by omega) h2
    · rename_i hp; omega

theorem findFrom_some {s : List Char} {p q n : Nat} {k : TokKind}
    (h : findFrom s p = some (q, k, n)) :
    p ≤ q ∧ q < s.length ∧ matchAt s q = some (k, n) ∧
      ∀ r, p ≤ r → r < q → matchAt s r = none :=
  findFromAux_some s _ p q k n h

theorem findFrom_none {s : List Char} {p : Nat} (h : findFrom s p = none) :
    ∀ r, p ≤ r → r < s.length → matchAt s r = none :=
  findFromAux_none s _ p h (le_refl _)

/-- `Tiles l p q`: the token spans of `l` cover exactly `[p, q)` in
left-to-right order, with no gaps, no overlaps and no empty span. -/
def Tiles : List Token → Nat → Nat → Prop
  | [], p, q => p = q
  | t :: rest, p, q => t.start = p ∧ t.start < t.stop ∧ Tiles rest t.stop q

theorem Tiles.le {l : List Token} : ∀ {p q : Nat}, Tiles l p q → p ≤ q := by
  induction l with
  | nil => intro p q h; simp only [Tiles] at h; omega
  | cons t rest ih =>
    intro p q h
    simp only [Tiles] at h
    obtain ⟨h1, h2, h3⟩ := h
    have := ih h3
    omega

theorem scanAux_tiles (s : List Char) :
    ∀ fuel p, p ≤ s.length → s.length - p < fuel →
      Tiles (scanAux s p fuel) p s.length := by
  intro fuel
  induction fuel with
  | zero => intro p h1 h2; omega
  | succ fuel ih =>
    intro p h1 h2
    rw [scanAux]
    split
    · rename_i hp
      split
      · exact ⟨rfl, hp, rfl⟩
      · rename_i q k n hf
        obtain ⟨hpq, hq, hm, -⟩ := findFrom_some hf
        obtain ⟨hn, hqn⟩ := matchAt_bound hm
        have hrec : Tiles (scanAux s (q + n) fuel) (q + n) s.length :=
          ih (q + n) (by omega) (by omega)
        by_cases hlt : p < q
        · rw [if_pos hlt]
          exact ⟨rfl, hlt, rfl, show q < q + n by omega, hrec⟩
        · rw [if_neg hlt]
          have hqp : q = p := by omega
          exact ⟨hqp, show q < q + n by omega, hrec⟩
    · rename_i hp
      have : p = s.length := by omega
      exact this

theorem slice_append (s : List Char) {a b c : Nat} (h1 : a ≤ b) (h2 : b ≤ c) :
    slice s a c = slice s a b ++ slice s b c := by
  have hc : c - a = (b - a) + (c - b) := by omega
  have hb : a + (b - a) = b := by omega
  unfold slice
  rw [hc, List.take_add, List.drop_drop, hb]

/-- Concatenation of the token texts (each token's text is its slice). -/
def tokensText (s : List Char) (l : List Token) : List Char :=
  (l.map (fun t => slice s t.start t.stop)).flatten

theorem tiles_concat (s : List Char) :
    ∀ (l : List Token) (p q : Nat), Tiles l p q → q ≤ s.length →
      tokensText s l = slice s p q := by
  intro l
  induction l with
  | nil =>
    intro p q h hq
    simp only [Tiles] at h
    subst h
    simp [tokensText, slice]
  | cons t rest ih =>
    intro p q h hq
    simp only [Tiles] at h
    obtain ⟨h1, h2, h3⟩ := h
    have hle : t.stop ≤ q := Tiles.le h3
    have ihr := ih t.stop q h3 hq
    simp only [tokensText, List.map_cons, List.flatten_cons] at ihr ⊢
    rw [ihr]
    subst h1
    exact (slice_append s (le_of_lt h2) hle).symm

theorem scanAux_kinds (s : List Char) :
    ∀ fuel p t, t ∈ scanAux s p fuel →
      (t.kind = .plain ∧ matchAt s t.start = none) ∨
      (∃ k n, matchAt s t.start = some (k, n) ∧ t.stop = t.start + n ∧
        t.kind = reclassify s t.start k) := by
  intro fuel
  induction fuel with
  | zero => intro p t h; simp [scanAux] at h
  | succ fuel ih =>
    intro p t h
    rw [scanAux] at h
    split at h
    · rename_i hp
      split at h
      · rename_i hf
        simp only [List.mem_singleton] at h
        subst h
        exact Or.inl ⟨rfl, findFrom_none hf p (le_refl p) hp⟩
      · rename_i q k n hf
        obtain ⟨hpq, hq, hm, hnone⟩ := findFrom_some hf
        rw [List.mem_append] at h
        rcases h with hgap | h
        · by_cases hlt : p < q
          · rw [if_pos hlt] at hgap
            simp only [List.mem_singleton] at hgap
            subst hgap
            exact Or.inl ⟨rfl, hnone p (le_refl p) hlt⟩
          · rw [if_neg hlt] at hgap
            simp at hgap
        · rw [List.mem_cons] at h
          rcases h with rfl | h
          · exact Or.inr ⟨k, n, hm, rfl, rfl⟩
          · exact ih (q + n) t h
    · simp at h

/-! ## Annotation model (`types.ts` Annotation plus `fieldName` as used in
`LessonView.tsx`) and the render path of `HighlightedContent`,
`CodeSnippet.renderContentWithHighlights` and the annotation store
operations embedded from `handleMouseUp`, `handleSaveAnnotation` and
`handleDeleteAnnotation`. -/

/-- The three annotated text fields of a concept. -/
inductive FieldName where
  | definition | notes | codeExample
deriving DecidableEq, Repr

/-- An annotation record. -/
structure Annot where
  id : String
  conceptId : String
  fieldName : FieldName
  targetText : List Char
  note : String
  startIndex : Nat
  endIndex : Nat
deriving DecidableEq, Repr

/-- Comparator `(a, b) => a.startIndex - b.startIndex` as an order. -/
def annLE (a b : Annot) : Prop := a.startIndex ≤ b.startIndex

instance : DecidableRel annLE := fun a b => Nat.decLe a.startIndex b.startIndex

instance : IsTotal Annot annLE := ⟨fun a b => Nat.le_total a.startIndex b.startIndex⟩

instance : IsTrans Annot annLE := ⟨fun _ _ _ h1 h2 => Nat.le_trans h1 h2⟩

/-- `annotations.filter(a => a.conceptId === cid && a.fieldName === fn)
.sort((a, b) => a.startIndex - b.startIndex)` (JS sort is stable; a stable
sort by a total preorder is insertion sort). -/
def relevantFor (annots : List Annot) (cid : String) (fn : FieldName) : List Annot :=
  List.insertionSort annLE
    (annots.filter (fun a => decide (a.conceptId = cid ∧ a.fieldName = fn)))

/-- A renderable part of a prose field: raw text, or a mark rendering the
annotation's `targetText` snapshot (`Highlight`, LessonView.tsx 161-170). -/
inductive Span where
  | plain (text : List Char)
  | highlight (a : Annot)
deriving DecidableEq, Repr

/-- The text a span paints. -/
def spanText : Span → List Char
  | .plain t => t
  | .highlight a => a.targetText

/-- The `relevantAnnotations.forEach` cursor walk of `HighlightedContent`
(LessonView.tsx 188-207) with its trailing segment. -/
def renderLoop (text : List Char) : List Annot → Nat → List Span
  | [], lastIndex =>
    if lastIndex < text.length then [.plain (text.drop lastIndex)] else []
  | a :: rest, lastIndex =>
    (if lastIndex < a.startIndex then
      [.plain (jsSubstring text lastIndex a.startIndex)] else [])
      ++ .highlight a :: renderLoop text rest a.endIndex

/-- `HighlightedContent` (LessonView.tsx 172-214): early return of the bare
text when it is empty or no annotation is relevant, else the cursor walk. -/
def HighlightedContent (text : List Char) (cid : String) (fn : FieldName)
    (annots : List Annot) : List Span :=
  if text = [] ∨ relevantFor annots cid fn = [] then [.plain text]
  else renderLoop text (relevantFor annots cid fn) 0

/-- Three backticks. -/
def ticks : List Char := [btick, btick, btick]

/-- The anchored fence regex of `parseCodeBlock`: three backticks, a
(greedy) word run that must be followed by a newline, a lazy middle, and
three backticks anchored at the very end of the string. -/
def matchFence (block : List Char) : Option (List Char × List Char) :=
  if block.take 3 = ticks then
    match (block.drop 3).drop ((block.drop 3).takeWhile isWordChar).length with
    | '\n' :: r =>
      if 3 ≤ r.length ∧ r.drop (r.length - 3) = ticks then
        some ((block.drop 3).takeWhile isWordChar, r.take (r.length - 3))
      else none
    | _ => none
  else none

/-- `parseCodeBlock` (LessonView.tsx 226-237): fenced block with language
tag, else trimmed bare fences with a JS `slice(3, -3)`, else unchanged. -/
def parseCodeBlock (block : List Char) : List Char × List Char :=
  match matchFence block with
  | some (lang, mid) =>
    (if lang = [] then "plaintext".toList else lang, jsTrim mid)
  | none =>
    if (jsTrim block).take 3 = ticks ∧
        (jsTrim block).drop ((jsTrim block).length - 3) = ticks then
      ("plaintext".toList,
        jsTrim (((jsTrim block).take ((jsTrim block).length - 3)).drop 3))
    else ("plaintext".toList, block)

/-- A renderable part of the code field: a syntax-highlighted segment of the
stripped code, or a mark wrapping the syntax-highlighted `targetText`. -/
inductive CodeSpan where
  | seg (text : List Char)
  | markSeg (a : Annot)
deriving DecidableEq, Repr

/-- The text a code span paints. -/
def codeSpanText : CodeSpan → List Char
  | .seg t => t
  | .markSeg a => a.targetText

/-- The cursor walk of `renderContentWithHighlights` (LessonView.tsx
340-360), at segment granularity. -/
def renderCodeLoop (code : List Char) : List Annot → Nat → List CodeSpan
  | [], lastIndex =>
    if lastIndex < code.length then [.seg (code.drop lastIndex)] else []
  | a :: rest, lastIndex =>
    (if lastIndex < a.startIndex then
      [.seg (jsSubstring code lastIndex a.startIndex)] else [])
      ++ .markSeg a :: renderCodeLoop code rest a.endIndex

/-- `renderContentWithHighlights` (LessonView.tsx 328-363): slices the
fence-stripped code of `parseCodeBlock`, never the raw `codeBlock`. -/
def renderContentWithHighlights (codeBlock : List Char) (cid : String)
    (fn : FieldName) (annots : List Annot) : List CodeSpan :=
  if relevantFor annots cid fn = [] then [.seg (parseCodeBlock codeBlock).2]
  else renderCodeLoop (parseCodeBlock codeBlock).2 (relevantFor annots cid fn) 0

/-- The append of `handleMouseUp` (LessonView.tsx 565):
`[...(lesson.annotations || []), newAnnotation]`. -/
def addAnnot (annots : List Annot) (a : Annot) : List Annot := annots ++ [a]

/-- `handleSaveAnnotation` (LessonView.tsx 591-598):
`annotations.map(a => a.id === id ? { ...a, note } : a)`. -/
def updateNote (annots : List Annot) (i : String) (note : String) : List Annot :=
  annots.map (fun a => if a.id = i then { a with note := note } else a)

/-! ## DOM selection model for `getSelectionOffsets` / `handleMouseUp`

The rendered container is modelled as the flat list of its text leaves,
each carrying its parent element's tag; a live selection is modelled by the
index and offset of its start leaf, its string value, its containment in
the container, and the parent tags of its anchor and focus nodes. -/

/-- One text leaf of the rendered container. -/
structure DomNode where
  parentTag : String
  text : List Char
deriving DecidableEq, Repr

/-- A live DOM selection, abstracted. -/
structure DomSelection where
  rangeCount : Nat
  anchorParentTag : String
  focusParentTag : String
  inContainer : Bool
  startNode : Nat
  startOffset : Nat
  selText : List Char
deriving DecidableEq, Repr

/-- `preSelectionRange.toString()`: the plain text of the container strictly
before the selection start. -/
def preSelectionText (container : List DomNode) (node off : Nat) : List Char :=
  ((container.take node).map DomNode.text).flatten
    ++ (container.getD node ⟨"", []⟩).text.take off

/-- `getSelectionOffsets` (LessonView.tsx 440-458). -/
def getSelectionOffsets (container : List DomNode) (sel : Option DomSelection) :
    Option (Nat × Nat) :=
  match sel with
  | none => none
  | some s =>
    if s.rangeCount = 0 then none
    else if s.inContainer then
      some ((preSelectionText container s.startNode s.startOffset).length,
        (preSelectionText container s.startNode s.startOffset).length + s.selText.length)
    else none

/-- Outcome of the capture path of `handleMouseUp` (no popover open). -/
inductive CaptureResult where
  | noAction
  | cleared
  | created (startIndex endIndex : Nat) (targetText : List Char)
deriving DecidableEq, Repr

/-- The capture path of `handleMouseUp` (LessonView.tsx 540-563): skip blank
selections, clear and reject selections anchored or focused inside a MARK,
otherwise capture offsets and create the annotation data. -/
def handleMouseUpCapture (container : List DomNode) (sel : Option DomSelection) :
    CaptureResult :=
  match sel with
  | none => .noAction
  | some s =>
    if (jsTrim s.selText).length = 0 then .noAction
    else if s.anchorParentTag = "MARK" ∨ s.focusParentTag = "MARK" then .cleared
    else
      match getSelectionOffsets container (some s) with
      | none => .noAction
      | some (a, b) => .created a b s.selText

/-! ## Render-path support lemmas -/

theorem jsSubstring_sub (s : List Char) (a b : Nat) : jsSubstring s a b <:+: s := by
  unfold jsSubstring
  exact ((List.drop_suffix _ _).isInfix).trans ((List.take_prefix _ _).isInfix)

theorem jsSubstring_eq_slice (s : List Char) (a b : Nat) (h1 : a ≤ b)
    (h2 : b ≤ s.length) : jsSubstring s a b = slice s a b := by
  unfold jsSubstring slice
  dsimp only
  rw [min_eq_left (h1.trans h2), min_eq_left h2,
    sup_eq_right.mpr h1, inf_eq_left.mpr h1]
  exact List.drop_take b a s

theorem slice_zero_len (s : List Char) : slice s 0 s.length = s := by
  simp [slice]

theorem slice_to_end (s : List Char) (a : Nat) : slice s a s.length = s.drop a := by
  unfold slice
  exact List.take_of_length_le (by rw [List.length_drop])

theorem slice_zero (s : List Char) (b : Nat) : slice s 0 b = s.take b := by
  simp [slice]

theorem renderLoop_plain_sub (text : List Char) :
    ∀ (l : List Annot) (k : Nat) (t : List Char),
      Span.plain t ∈ renderLoop text l k → t <:+: text := by
  intro l
  induction l with
  | nil =>
    intro k t h
    simp only [renderLoop] at h
    split at h
    · simp only [List.mem_singleton, Span.plain.injEq] at h
      subst h
      exact (List.drop_suffix k text).isInfix
    · simp at h
  | cons a rest ih =>
    intro k t h
    simp only [renderLoop] at h
    rw [List.mem_append] at h
    rcases h with h | h
    · split at h
      · simp only [List.mem_singleton, Span.plain.injEq] at h
        subst h
        exact jsSubstring_sub text k a.startIndex
      · simp at h
    · rw [List.mem_cons] at h
      rcases h with h | h
      · exact absurd h (by simp)
      · exact ih a.endIndex t h

theorem renderLoop_nil_of_ge (text : List Char) (k : Nat) (h : text.length ≤ k) :
    renderLoop text [] k = [] := by
  simp only [renderLoop]
  rw [if_neg (by omega)]

theorem HighlightedContent_plain_sub {text : List Char} {cid : String}
    {fn : FieldName} {annots : List Annot} {t : List Char}
    (h : Span.plain t ∈ HighlightedContent text cid fn annots) : t <:+: text := by
  unfold HighlightedContent at h
  split at h
  · simp only [List.mem_singleton, Span.plain.injEq] at h
    subst h
    exact List.infix_rfl
  · exact renderLoop_plain_sub text _ 0 t h

theorem renderCodeLoop_seg_sub (code : List Char) :
    ∀ (l : List Annot) (k : Nat) (t : List Char),
      CodeSpan.seg t ∈ renderCodeLoop code l k → t <:+: code := by
  intro l
  induction l with
  | nil =>
    intro k t h
    simp only [renderCodeLoop] at h
    split at h
    · simp only [List.mem_singleton, CodeSpan.seg.injEq] at h
      subst h
      exact (List.drop_suffix k code).isInfix
    · simp at h
  | cons a rest ih =>
    intro k t h
    simp only [renderCodeLoop] at h
    rw [List.mem_append] at h
    rcases h with h | h
    · split at h
      · simp only [List.mem_singleton, CodeSpan.seg.injEq] at h
        subst h
        exact jsSubstring_sub code k a.startIndex
      · simp at h
    · rw [List.mem_cons] at h
      rcases h with h | h
      · exact absurd h (by simp)
      · exact ih a.endIndex t h

theorem renderContent_seg_sub {codeBlock : List Char} {cid : String}
    {fn : FieldName} {annots : List Annot} {t : List Char}
    (h : CodeSpan.seg t ∈ renderContentWithHighlights codeBlock cid fn annots) :
    t <:+: (parseCodeBlock codeBlock).2 := by
  unfold renderContentWithHighlights at h
  split at h
  · simp only [List.mem_singleton, CodeSpan.seg.injEq] at h
    subst h
    exact List.infix_rfl
  · exact renderCodeLoop_seg_sub _ _ 0 t h

/-! ## Claim theorems -/

/-- C1: Tokenizer totality.  For every input string, the token spans of
`SyntaxHighlightedText` tile `[0, len)` exactly, left to right, with no
gaps, no overlaps and no empty span; concatenating the span texts in order
reproduces the input; and the empty string yields no tokens.  (Totality:
`tokenize` is a total function by construction.) -/
theorem C1_tokenizer_totality (s : List Char) :
    Tiles (tokenize s) 0 s.length ∧ tokensText s (tokenize s) = s ∧
      tokenize ([] : List Char) = [] := by
  have ht : Tiles (tokenize s) 0 s.length :=
    scanAux_tiles s (s.length + 1) 0 (Nat.zero_le _) (by omega)
  refine ⟨ht, ?_, rfl⟩
  rw [tiles_concat s (tokenize s) 0 s.length ht (le_refl _)]
  exact slice_zero_len s

/-- C2 counterexample: with `A = [0,5)` and `B = [3,8)` over "abcdefgh"
(each `targetText` the creation-time snapshot), the merged render emits
B's whole snapshot `[3,8)` as the second highlighted span, not the claimed
surviving remainder `[5,8)`. -/
theorem C2_counterexample :
    (HighlightedContent "abcdefgh".toList "c1" FieldName.definition
        [⟨"a1", "c1", FieldName.definition, slice "abcdefgh".toList 0 5, "", 0, 5⟩,
         ⟨"a2", "c1", FieldName.definition, slice "abcdefgh".toList 3 8, "", 3, 8⟩]).map spanText
      = [slice "abcdefgh".toList 0 5, slice "abcdefgh".toList 3 8]
    ∧ slice "abcdefgh".toList 3 8 ≠ slice "abcdefgh".toList 5 8 := by decide

/-- C2 amended: with the same `A` and `B`, the merged render emits exactly
the two highlighted spans `A` then `B` and nothing else (the overlap only
suppresses the plain gap segment); the second span renders B's entire
`targetText` snapshot, covering `[3,8)`; the cursor still advances to B's
`endIndex`, so no trailing segment follows; and no exception is raised
(the render function is total by construction). -/
theorem C2_absorption_amended :
    HighlightedContent "abcdefgh".toList "c1" FieldName.definition
        [⟨"a1", "c1", FieldName.definition, slice "abcdefgh".toList 0 5, "", 0, 5⟩,
         ⟨"a2", "c1", FieldName.definition, slice "abcdefgh".toList 3 8, "", 3, 8⟩]
      = [Span.highlight ⟨"a1", "c1", FieldName.definition, slice "abcdefgh".toList 0 5, "", 0, 5⟩,
         Span.highlight ⟨"a2", "c1", FieldName.definition, slice "abcdefgh".toList 3 8, "", 3, 8⟩]
    ∧ spanText (Span.highlight
        ⟨"a2", "c1", FieldName.definition, slice "abcdefgh".toList 3 8, "", 3, 8⟩)
      = slice "abcdefgh".toList 3 8 := by decide

/-- C3 counterexample: adding an annotation whose id equals an existing
entry's id does not return the existing list unchanged — the add appends
unconditionally, yielding a longer list with two entries of the same id. -/
theorem C3_counterexample :
    addAnnot [⟨"x", "c1", FieldName.definition, ['a'], "", 0, 1⟩]
        ⟨"x", "c1", FieldName.notes, ['b'], "n", 2, 3⟩
      ≠ [⟨"x", "c1", FieldName.definition, ['a'], "", 0, 1⟩]
    ∧ (addAnnot [⟨"x", "c1", FieldName.definition, ['a'], "", 0, 1⟩]
        ⟨"x", "c1", FieldName.notes, ['b'], "n", 2, 3⟩).length = 2
    ∧ (addAnnot [⟨"x", "c1", FieldName.definition, ['a'], "", 0, 1⟩]
        ⟨"x", "c1", FieldName.notes, ['b'], "n", 2, 3⟩).countP
          (fun a => decide (a.id = "x")) = 2 := by decide

/-- C3 amended: the add operation appends the new annotation at the end of
the list unconditionally — it performs no duplicate-id check, so a
colliding id is appended as a second entry (the count of entries carrying
the new id grows by one) and every existing entry is kept as a prefix. -/
theorem C3_add_amended (annots : List Annot) (a : Annot) :
    (addAnnot annots a).length = annots.length + 1
    ∧ (addAnnot annots a).getLast? = some a
    ∧ annots <+: addAnnot annots a
    ∧ (addAnnot annots a).countP (fun b => decide (b.id = a.id))
        = annots.countP (fun b => decide (b.id = a.id)) + 1 := by
  unfold addAnnot
  refine ⟨by simp, ?_, ⟨[a], rfl⟩, ?_⟩
  · rw [List.getLast?_append]
    rfl
  · rw [List.countP_append]
    simp

/-- C6: Stale-offset safety.  The merge/render never fails for any
annotation list, including out-of-range offsets: every non-highlighted
segment it emits (prose path and code path alike) is a contiguous
substring of the rendered text, because JS `substring` clamps both bounds
to the length; and once the cursor has passed the end of the text, the
trailing segment is empty. -/
theorem C6_stale_offset_safety (text : List Char) (cid : String) (fn : FieldName)
    (annots : List Annot) (sp : Span) (t : List Char) (k : Nat)
    (codeBlock : List Char) (csp : CodeSpan) (u : List Char)
    (hsp : sp ∈ HighlightedContent text cid fn annots)
    (ht : sp = Span.plain t)
    (hk : text.length ≤ k)
    (hcsp : csp ∈ renderContentWithHighlights codeBlock cid fn annots)
    (hu : csp = CodeSpan.seg u) :
    t <:+: text ∧ renderLoop text [] k = []
      ∧ u <:+: (parseCodeBlock codeBlock).2 := by
  subst ht
  subst hu
  exact ⟨HighlightedContent_plain_sub hsp, renderLoop_nil_of_ge text k hk,
    renderContent_seg_sub hcsp⟩

/-- C6 witness: a concrete instantiation of the stale-offset safety
theorem. -/
theorem C6_stale_offset_safety_witness :
    "ab".toList <:+: "ab".toList ∧ renderLoop "ab".toList [] 5 = []
      ∧ "x".toList <:+: (parseCodeBlock "x".toList).2 :=
  C6_stale_offset_safety "ab".toList "c1" FieldName.definition []
    (Span.plain "ab".toList) "ab".toList 5 "x".toList
    (CodeSpan.seg "x".toList) "x".toList
    (by decide) rfl (by decide) (by decide) rfl

theorem slice_self (s : List Char) (b : Nat) : slice s b b = [] := by
  simp [slice]

/-- C4: Offset round-trip.  Rendering `s` with exactly one matching
annotation `[i, j)` (0 ≤ i < j ≤ len, `targetText` the creation-time
snapshot `s[i:j]`) yields the highlighted span whose text is `s[i:j]`,
preceded by the plain prefix when non-empty and followed by the plain
suffix when non-empty, and the concatenation of all span texts is `s`. -/
theorem C4_offset_round_trip (s : List Char) (cid : String) (fn : FieldName)
    (a : Annot)
    (hc : a.conceptId = cid) (hf : a.fieldName = fn)
    (hij : a.startIndex < a.endIndex) (hle : a.endIndex ≤ s.length)
    (ht : a.targetText = slice s a.startIndex a.endIndex) :
    HighlightedContent s cid fn [a]
      = (if 0 < a.startIndex then [Span.plain (slice s 0 a.startIndex)] else [])
        ++ Span.highlight a
          :: (if a.endIndex < s.length then
                [Span.plain (slice s a.endIndex s.length)] else [])
    ∧ ((HighlightedContent s cid fn [a]).map spanText).flatten = s := by
  have hrel : relevantFor [a] cid fn = [a] := by
    unfold relevantFor
    rw [List.filter_cons]
    simp [hc, hf, List.insertionSort, List.orderedInsert]
  have hslen : 0 < s.length := by omega
  have hcond : ¬(s = [] ∨ relevantFor [a] cid fn = []) := by
    rw [hrel]
    rintro (h | h)
    · rw [h] at hslen; simp at hslen
    · exact List.noConfusion h
  have hmain : HighlightedContent s cid fn [a] = renderLoop s [a] 0 := by
    unfold HighlightedContent
    rw [if_neg hcond, hrel]
  have hloop : renderLoop s [a] 0
      = (if 0 < a.startIndex then [Span.plain (slice s 0 a.startIndex)] else [])
        ++ Span.highlight a
          :: (if a.endIndex < s.length then
                [Span.plain (slice s a.endIndex s.length)] else []) := by
    simp only [renderLoop]
    congr 1
    · by_cases h0 : 0 < a.startIndex
      · rw [if_pos h0, if_pos h0,
          jsSubstring_eq_slice s 0 a.startIndex (Nat.zero_le _) (by omega)]
      · rw [if_neg h0, if_neg h0]
    · rw [slice_to_end]
  have hkey : slice s 0 a.startIndex ++ slice s a.startIndex a.endIndex
      ++ slice s a.endIndex s.length = s := by
    rw [← slice_append s (Nat.zero_le _) (le_of_lt hij),
      ← slice_append s (Nat.zero_le _) hle]
    exact slice_zero_len s
  refine ⟨by rw [hmain, hloop], ?_⟩
  rw [hmain, hloop]
  by_cases h0 : 0 < a.startIndex <;> by_cases hend : a.endIndex < s.length
  · rw [if_pos h0, if_pos hend]
    simpa [spanText, ht] using hkey
  · have hj : a.endIndex = s.length := by omega
    rw [if_pos h0, if_neg hend]
    rw [hj, slice_self] at hkey
    simpa [spanText, ht, hj] using hkey
  · have hi : a.startIndex = 0 := by omega
    rw [if_neg h0, if_pos hend]
    rw [hi, slice_self] at hkey
    simpa [spanText, ht, hi] using hkey
  · have hi : a.startIndex = 0 := by omega
    have hj : a.endIndex = s.length := by omega
    rw [if_neg h0, if_neg hend]
    rw [hi, hj, slice_self, slice_self] at hkey
    simpa [spanText, ht, hi, hj] using hkey

/-- C4 witness: the round-trip at `s = "abcdef"`, `i = 2`, `j = 4`. -/
theorem C4_offset_round_trip_witness :
    HighlightedContent "abcdef".toList "c1" FieldName.notes
        [⟨"w", "c1", FieldName.notes, slice "abcdef".toList 2 4, "", 2, 4⟩]
      = (if 0 < (⟨"w", "c1", FieldName.notes, slice "abcdef".toList 2 4, "", 2, 4⟩ : Annot).startIndex then
          [Span.plain (slice "abcdef".toList 0
            (⟨"w", "c1", FieldName.notes, slice "abcdef".toList 2 4, "", 2, 4⟩ : Annot).startIndex)] else [])
        ++ Span.highlight ⟨"w", "c1", FieldName.notes, slice "abcdef".toList 2 4, "", 2, 4⟩
          :: (if (⟨"w", "c1", FieldName.notes, slice "abcdef".toList 2 4, "", 2, 4⟩ : Annot).endIndex
                < "abcdef".toList.length then
                [Span.plain (slice "abcdef".toList
                  (⟨"w", "c1", FieldName.notes, slice "abcdef".toList 2 4, "", 2, 4⟩ : Annot).endIndex
                  "abcdef".toList.length)] else [])
    ∧ ((HighlightedContent "abcdef".toList "c1" FieldName.notes
        [⟨"w", "c1", FieldName.notes, slice "abcdef".toList 2 4, "", 2, 4⟩]).map spanText).flatten
      = "abcdef".toList :=
  C4_offset_round_trip "abcdef".toList "c1" FieldName.notes
    ⟨"w", "c1", FieldName.notes, slice "abcdef".toList 2 4, "", 2, 4⟩
    rfl rfl (by decide) (by decide) rfl

/-- C5: Renderer read path.  The renderer's relevant list for a concept and
field contains only annotations whose `conceptId` and `fieldName` both
match, is a permutation of the plain filter, is sorted ascending by
`startIndex`, and the rendered output of `HighlightedContent` is unchanged
when all non-matching annotations are removed — so annotations of other
concepts or fields never contribute any span. -/
theorem C5_renderer_read_path (annots : List Annot) (cid : String) (fn : FieldName)
    (text : List Char) (a : Annot) (ha : a ∈ relevantFor annots cid fn) :
    (a.conceptId = cid ∧ a.fieldName = fn)
    ∧ List.Perm (relevantFor annots cid fn)
        (annots.filter (fun x => decide (x.conceptId = cid ∧ x.fieldName = fn)))
    ∧ List.Sorted annLE (relevantFor annots cid fn)
    ∧ HighlightedContent text cid fn annots
        = HighlightedContent text cid fn
            (annots.filter (fun x => decide (x.conceptId = cid ∧ x.fieldName = fn))) := by
  have hperm := List.perm_insertionSort annLE
      (annots.filter (fun x => decide (x.conceptId = cid ∧ x.fieldName = fn)))
  refine ⟨?_, hperm, List.sorted_insertionSort annLE _, ?_⟩
  · have hmem : a ∈ annots.filter
        (fun x => decide (x.conceptId = cid ∧ x.fieldName = fn)) :=
      hperm.mem_iff.mp ha
    exact of_decide_eq_true (List.mem_filter.mp hmem).2
  · have hfil : (annots.filter
        (fun x => decide (x.conceptId = cid ∧ x.fieldName = fn))).filter
          (fun x => decide (x.conceptId = cid ∧ x.fieldName = fn))
        = annots.filter (fun x => decide (x.conceptId = cid ∧ x.fieldName = fn)) := by
      rw [List.filter_filter]
      congr 1
      funext x
      rcases h : decide (x.conceptId = cid ∧ x.fieldName = fn) <;> simp [h]
    unfold HighlightedContent relevantFor
    rw [hfil]

/-- C5 witness: a concrete instantiation of the read-path theorem. -/
theorem C5_renderer_read_path_witness :
    ((⟨"y", "c1", FieldName.definition, ['a'], "", 1, 2⟩ : Annot).conceptId = "c1"
      ∧ (⟨"y", "c1", FieldName.definition, ['a'], "", 1, 2⟩ : Annot).fieldName = FieldName.definition)
    ∧ List.Perm (relevantFor [⟨"y", "c1", FieldName.definition, ['a'], "", 1, 2⟩] "c1" FieldName.definition)
        ([⟨"y", "c1", FieldName.definition, ['a'], "", 1, 2⟩].filter
          (fun x => decide (x.conceptId = "c1" ∧ x.fieldName = FieldName.definition)))
    ∧ List.Sorted annLE (relevantFor [⟨"y", "c1", FieldName.definition, ['a'], "", 1, 2⟩] "c1" FieldName.definition)
    ∧ HighlightedContent "ab".toList "c1" FieldName.definition
        [⟨"y", "c1", FieldName.definition, ['a'], "", 1, 2⟩]
        = HighlightedContent "ab".toList "c1" FieldName.definition
            ([⟨"y", "c1", FieldName.definition, ['a'], "", 1, 2⟩].filter
              (fun x => decide (x.conceptId = "c1" ∧ x.fieldName = FieldName.definition))) :=
  C5_renderer_read_path [⟨"y", "c1", FieldName.definition, ['a'], "", 1, 2⟩]
    "c1" FieldName.definition "ab".toList
    ⟨"y", "c1", FieldName.definition, ['a'], "", 1, 2⟩ (by decide)

/-- A default annotation record, used only as the `getD` fallback. -/
def dummyAnnot : Annot := ⟨"", "", FieldName.definition, [], "", 0, 0⟩

/-- C8: `updateNote` frame property.  The result has the same length and
order; at every index, all fields except `note` are unchanged and `note`
is replaced exactly when the entry's id matches; and on a list with no
matching id the operation is the identity.  (The embedding is pure, so the
input list is never mutated by construction.) -/
theorem C8_updateNote_frame (annots : List Annot) (i note : String) (j : Nat)
    (hj : j < annots.length) :
    (updateNote annots i note).length = annots.length
    ∧ ((updateNote annots i note).getD j dummyAnnot).id
        = (annots.getD j dummyAnnot).id
    ∧ ((updateNote annots i note).getD j dummyAnnot).conceptId
        = (annots.getD j dummyAnnot).conceptId
    ∧ ((updateNote annots i note).getD j dummyAnnot).fieldName
        = (annots.getD j dummyAnnot).fieldName
    ∧ ((updateNote annots i note).getD j dummyAnnot).targetText
        = (annots.getD j dummyAnnot).targetText
    ∧ ((updateNote annots i note).getD j dummyAnnot).startIndex
        = (annots.getD j dummyAnnot).startIndex
    ∧ ((updateNote annots i note).getD j dummyAnnot).endIndex
        = (annots.getD j dummyAnnot).endIndex
    ∧ ((updateNote annots i note).getD j dummyAnnot).note
        = (if (annots.getD j dummyAnnot).id = i then note
           else (annots.getD j dummyAnnot).note)
    ∧ updateNote (annots.filter (fun x => !(decide (x.id = i)))) i note
        = annots.filter (fun x => !(decide (x.id = i))) := by
  have hlen : (updateNote annots i note).length = annots.length := by
    unfold updateNote
    exact List.length_map _ _
  have hget : (updateNote annots i note).getD j dummyAnnot
      = (fun x => if x.id = i then { x with note := note } else x)
          (annots.getD j dummyAnnot) := by
    unfold updateNote
    rw [List.getD_eq_getElem _ _ (by simpa [List.length_map] using hj),
      List.getD_eq_getElem _ _ hj, List.getElem_map]
  refine ⟨hlen, ?_, ?_, ?_, ?_, ?_, ?_, ?_, ?_⟩
  all_goals try (rw [hget]; dsimp only; split <;> rfl)
  unfold updateNote
  have h : ∀ x ∈ annots.filter (fun x => !(decide (x.id = i))),
      (if x.id = i then { x with note := note } else x) = x := by
    intro x hx
    have hne := (List.mem_filter.mp hx).2
    rw [if_neg (by simpa using hne)]
  rw [List.map_congr_left h]
  exact List.map_id' _

/-- C8 witness: a concrete instantiation of the frame property. -/
theorem C8_updateNote_frame_witness :
    (updateNote [⟨"x", "c1", FieldName.definition, ['a'], "old", 0, 1⟩,
        ⟨"z", "c1", FieldName.notes, ['b'], "", 1, 2⟩] "x" "hello").length
      = ([⟨"x", "c1", FieldName.definition, ['a'], "old", 0, 1⟩,
          (⟨"z", "c1", FieldName.notes, ['b'], "", 1, 2⟩ : Annot)]).length
    ∧ ((updateNote [⟨"x", "c1", FieldName.definition, ['a'], "old", 0, 1⟩,
          ⟨"z", "c1", FieldName.notes, ['b'], "", 1, 2⟩] "x" "hello").getD 0 dummyAnnot).id
        = (([⟨"x", "c1", FieldName.definition, ['a'], "old", 0, 1⟩,
            (⟨"z", "c1", FieldName.notes, ['b'], "", 1, 2⟩ : Annot)]).getD 0 dummyAnnot).id
    ∧ ((updateNote [⟨"x", "c1", FieldName.definition, ['a'], "old", 0, 1⟩,
          ⟨"z", "c1", FieldName.notes, ['b'], "", 1, 2⟩] "x" "hello").getD 0 dummyAnnot).conceptId
        = (([⟨"x", "c1", FieldName.definition, ['a'], "old", 0, 1⟩,
            (⟨"z", "c1", FieldName.notes, ['b'], "", 1, 2⟩ : Annot)]).getD 0 dummyAnnot).conceptId
    ∧ ((updateNote [⟨"x", "c1", FieldName.definition, ['a'], "old", 0, 1⟩,
          ⟨"z", "c1", FieldName.notes, ['b'], "", 1, 2⟩] "x" "hello").getD 0 dummyAnnot).fieldName
        = (([⟨"x", "c1", FieldName.definition, ['a'], "old", 0, 1⟩,
            (⟨"z", "c1", FieldName.notes, ['b'], "", 1, 2⟩ : Annot)]).getD 0 dummyAnnot).fieldName
    ∧ ((updateNote [⟨"x", "c1", FieldName.definition, ['a'], "old", 0, 1⟩,
          ⟨"z", "c1", FieldName.notes, ['b'], "", 1, 2⟩] "x" "hello").getD 0 dummyAnnot).targetText
        = (([⟨"x", "c1", FieldName.definition, ['a'], "old", 0, 1⟩,
            (⟨"z", "c1", FieldName.notes, ['b'], "", 1, 2⟩ : Annot)]).getD 0 dummyAnnot).targetText
    ∧ ((updateNote [⟨"x", "c1", FieldName.definition, ['a'], "old", 0, 1⟩,
          ⟨"z", "c1", FieldName.notes, ['b'], "", 1, 2⟩] "x" "hello").getD 0 dummyAnnot).startIndex
        = (([⟨"x", "c1", FieldName.definition, ['a'], "old", 0, 1⟩,
            (⟨"z", "c1", FieldName.notes, ['b'], "", 1, 2⟩ : Annot)]).getD 0 dummyAnnot).startIndex
    ∧ ((updateNote [⟨"x", "c1", FieldName.definition, ['a'], "old", 0, 1⟩,
          ⟨"z", "c1", FieldName.notes, ['b'], "", 1, 2⟩] "x" "hello").getD 0 dummyAnnot).endIndex
        = (([⟨"x", "c1", FieldName.definition, ['a'], "old", 0, 1⟩,
            (⟨"z", "c1", FieldName.notes, ['b'], "", 1, 2⟩ : Annot)]).getD 0 dummyAnnot).endIndex
    ∧ ((updateNote [⟨"x", "c1", FieldName.definition, ['a'], "old", 0, 1⟩,
          ⟨"z", "c1", FieldName.notes, ['b'], "", 1, 2⟩] "x" "hello").getD 0 dummyAnnot).note
        = (if (([⟨"x", "c1", FieldName.definition, ['a'], "old", 0, 1⟩,
            (⟨"z", "c1", FieldName.notes, ['b'], "", 1, 2⟩ : Annot)]).getD 0 dummyAnnot).id = "x"
           then "hello"
           else (([⟨"x", "c1", FieldName.definition, ['a'], "old", 0, 1⟩,
             (⟨"z", "c1", FieldName.notes, ['b'], "", 1, 2⟩ : Annot)]).getD 0 dummyAnnot).note)
    ∧ updateNote (([⟨"x", "c1", FieldName.definition, ['a'], "old", 0, 1⟩,
          (⟨"z", "c1", FieldName.notes, ['b'], "", 1, 2⟩ : Annot)]).filter
            (fun x => !(decide (x.id = "x")))) "x" "hello"
        = ([⟨"x", "c1", FieldName.definition, ['a'], "old", 0, 1⟩,
            (⟨"z", "c1", FieldName.notes, ['b'], "", 1, 2⟩ : Annot)]).filter
              (fun x => !(decide (x.id = "x"))) :=
  C8_updateNote_frame
    [⟨"x", "c1", FieldName.definition, ['a'], "old", 0, 1⟩,
     ⟨"z", "c1", FieldName.notes, ['b'], "", 1, 2⟩] "x" "hello" 0 (by decide)

/-- C7: Offset-capture contract.  The capture path returns no annotation
for a blank (empty/collapsed) selection; clears and rejects a selection
whose anchor or focus sits inside an existing MARK; and a created
annotation has `startIndex` equal to the number of plain-text characters
of the container preceding the selection start (the length of the
pre-selection range's string, equal to the sum of the text lengths of the
leaves before the start leaf plus the clamped start offset), with
`endIndex = startIndex + len(selected text)`; creation also implies the
selection was inside the container. -/
theorem C7_offset_capture (container : List DomNode) (s1 s2 s3 : DomSelection)
    (a b : Nat) (t : List Char)
    (h1 : (jsTrim s1.selText).length = 0)
    (h2 : (jsTrim s2.selText).length ≠ 0)
    (h2m : s2.anchorParentTag = "MARK" ∨ s2.focusParentTag = "MARK")
    (h3 : handleMouseUpCapture container (some s3) = .created a b t) :
    handleMouseUpCapture container none = CaptureResult.noAction
    ∧ handleMouseUpCapture container (some s1) = CaptureResult.noAction
    ∧ handleMouseUpCapture container (some s2) = CaptureResult.cleared
    ∧ s3.inContainer = true
    ∧ t = s3.selText
    ∧ a = (preSelectionText container s3.startNode s3.startOffset).length
    ∧ a = ((container.take s3.startNode).map (fun nd => nd.text.length)).sum
        + min s3.startOffset (container.getD s3.startNode ⟨"", []⟩).text.length
    ∧ b = a + t.length := by
  have hlen : (preSelectionText container s3.startNode s3.startOffset).length
      = ((container.take s3.startNode).map (fun nd => nd.text.length)).sum
        + min s3.startOffset (container.getD s3.startNode ⟨"", []⟩).text.length := by
    simp [preSelectionText, List.length_flatten, List.map_map, Function.comp,
      List.length_take]
    rfl
  have hs1 : handleMouseUpCapture container (some s1) = CaptureResult.noAction := by
    unfold handleMouseUpCapture
    dsimp only
    rw [if_pos h1]
  have hs2 : handleMouseUpCapture container (some s2) = CaptureResult.cleared := by
    unfold handleMouseUpCapture
    dsimp only
    rw [if_neg h2, if_pos h2m]
  unfold handleMouseUpCapture at h3
  dsimp only at h3
  split at h3
  · exact absurd h3 (by simp)
  · split at h3
    · exact absurd h3 (by simp)
    · split at h3
      · exact absurd h3 (by simp)
      · rename_i a' b' hg
        simp only [CaptureResult.created.injEq] at h3
        obtain ⟨ha, hb, htt⟩ := h3
        unfold getSelectionOffsets at hg
        dsimp only at hg
        split at hg
        · exact Option.noConfusion hg
        · split at hg
          · rename_i hin
            simp only [Option.some_inj, Prod.mk.injEq] at hg
            obtain ⟨ha', hb'⟩ := hg
            subst ha'
            subst hb'
            refine ⟨rfl, hs1, hs2, hin, htt.symm, ha.symm, ?_, ?_⟩
            · rw [← ha, hlen]
            · rw [← hb, ← ha, htt]
          · exact Option.noConfusion hg

/-- C7 witness: a concrete instantiation of the capture contract at a
two-leaf container. -/
theorem C7_offset_capture_witness :
    handleMouseUpCapture [⟨"SPAN", "ab".toList⟩, ⟨"SPAN", "cd".toList⟩] none
        = CaptureResult.noAction
    ∧ handleMouseUpCapture [⟨"SPAN", "ab".toList⟩, ⟨"SPAN", "cd".toList⟩]
        (some ⟨0, "SPAN", "SPAN", false, 0, 0, " ".toList⟩) = CaptureResult.noAction
    ∧ handleMouseUpCapture [⟨"SPAN", "ab".toList⟩, ⟨"SPAN", "cd".toList⟩]
        (some ⟨1, "MARK", "SPAN", true, 0, 0, "b".toList⟩) = CaptureResult.cleared
    ∧ (⟨1, "SPAN", "SPAN", true, 1, 1, "d".toList⟩ : DomSelection).inContainer = true
    ∧ "d".toList = (⟨1, "SPAN", "SPAN", true, 1, 1, "d".toList⟩ : DomSelection).selText
    ∧ 3 = (preSelectionText [⟨"SPAN", "ab".toList⟩, ⟨"SPAN", "cd".toList⟩] 1 1).length
    ∧ 3 = (([⟨"SPAN", "ab".toList⟩, (⟨"SPAN", "cd".toList⟩ : DomNode)].take 1).map
            (fun nd => nd.text.length)).sum
        + min 1 (([⟨"SPAN", "ab".toList⟩,
            (⟨"SPAN", "cd".toList⟩ : DomNode)].getD 1 ⟨"", []⟩).text.length)
    ∧ 4 = 3 + "d".toList.length :=
  C7_offset_capture [⟨"SPAN", "ab".toList⟩, ⟨"SPAN", "cd".toList⟩]
    ⟨0, "SPAN", "SPAN", false, 0, 0, " ".toList⟩
    ⟨1, "MARK", "SPAN", true, 0, 0, "b".toList⟩
    ⟨1, "SPAN", "SPAN", true, 1, 1, "d".toList⟩
    3 4 "d".toList (by decide) (by decide) (Or.inl rfl) (by decide)

/-- C9 counterexample: in `tokenize "renew Foo()"` the call-site match
`Foo` IS reclassified to the type-name styling although no keyword token
(in particular no `new`) precedes it — the preceding text is the single
plain run "renew", whose trailing characters merely spell "new".  This
refutes the claimed "iff the nearest preceding non-whitespace token
sequence ends with the keyword `new`". -/
theorem C9_counterexample :
    (⟨6, 9, TokKind.className⟩ : Token) ∈ tokenize "renew Foo()".toList
    ∧ (∀ t ∈ tokenize "renew Foo()".toList, t.kind ≠ TokKind.keyword)
    ∧ matchAt "renew Foo()".toList 6 = some (TokKind.function, 3) := by decide

/-- C9 amended: a call-site (function-rule) match is reclassified from
identifier-call to type-name exactly when its name starts with an
uppercase letter AND the preceding text, after `trim()`, ends with the
three characters "new" — a plain string-suffix test, satisfied also by a
preceding identifier such as `renew`, not only by the keyword `new`;
otherwise the token keeps the identifier-call classification.  (In
particular `tokenize "new Foo()"` classifies `Foo` as type-name.) -/
theorem C9_constructor_tiebreak_amended (s : List Char) (t : Token) (n : Nat)
    (htm : t ∈ tokenize s)
    (hm : matchAt s t.start = some (TokKind.function, n)) :
    (t.kind = TokKind.className
      ↔ (headUpper s t.start = true
          ∧ endsWithNew (jsTrim (s.take t.start)) = true))
    ∧ (t.kind = TokKind.className ∨ t.kind = TokKind.function) := by
  rcases scanAux_kinds s (s.length + 1) 0 t htm with ⟨-, hnone⟩ | ⟨k, n', hm', -, hkind⟩
  · rw [hm] at hnone
    exact Option.noConfusion hnone
  · rw [hm] at hm'
    simp only [Option.some_inj, Prod.mk.injEq] at hm'
    obtain ⟨hk, -⟩ := hm'
    subst hk
    have hkind' : t.kind = if (headUpper s t.start = true
        ∧ endsWithNew (jsTrim (s.take t.start)) = true)
        then TokKind.className else TokKind.function := hkind
    by_cases hcond : headUpper s t.start = true
        ∧ endsWithNew (jsTrim (s.take t.start)) = true
    · rw [if_pos hcond] at hkind'
      rw [hkind']
      exact ⟨⟨fun _ => hcond, fun _ => rfl⟩, Or.inl rfl⟩
    · rw [if_neg hcond] at hkind'
      rw [hkind']
      exact ⟨⟨fun h => TokKind.noConfusion h, fun h => absurd h hcond⟩, Or.inr rfl⟩

/-- C9 witness: the amended tie-break at `tokenize "new Foo()"`, where the
token `[4,7)` is the call-site match `Foo` and is reclassified. -/
theorem C9_constructor_tiebreak_witness :
    ((⟨4, 7, TokKind.className⟩ : Token).kind = TokKind.className
      ↔ (headUpper "new Foo()".toList (⟨4, 7, TokKind.className⟩ : Token).start = true
          ∧ endsWithNew (jsTrim ("new Foo()".toList.take
              (⟨4, 7, TokKind.className⟩ : Token).start)) = true))
    ∧ ((⟨4, 7, TokKind.className⟩ : Token).kind = TokKind.className
        ∨ (⟨4, 7, TokKind.className⟩ : Token).kind = TokKind.function) :=
  C9_constructor_tiebreak_amended "new Foo()".toList ⟨4, 7, TokKind.className⟩ 3
    (by decide) (by decide)

theorem takeWhile_append_run (p : Char → Bool) (w : List Char) (d : Char)
    (y : List Char) (hw : ∀ c ∈ w, p c = true) (hd : p d = false) :
    (w ++ d :: y).takeWhile p = w := by
  induction w with
  | nil => simp [List.takeWhile_cons, hd]
  | cons c w ih =>
    rw [List.cons_append, List.takeWhile_cons, hw c (by simp)]
    rw [ih (fun x hx => hw x (by simp [hx]))]
    simp

theorem matchFence_wellformed (lang mid : List Char)
    (hl : ∀ c ∈ lang, isWordChar c = true) :
    matchFence (ticks ++ lang ++ '\n' :: (mid ++ ticks)) = some (lang, mid) := by
  have h30 : (3 : Nat) = ticks.length := rfl
  unfold matchFence
  have h3 : (ticks ++ lang ++ '\n' :: (mid ++ ticks)).take 3
      = ticks := by
    rw [List.append_assoc, h30, List.take_left]
  have hdrop : (ticks ++ lang ++ '\n' :: (mid ++ ticks)).drop 3
      = lang ++ '\n' :: (mid ++ ticks) := by
    rw [List.append_assoc, h30, List.drop_left]
  rw [if_pos h3, hdrop]
  have hrun : (lang ++ '\n' :: (mid ++ ticks)).takeWhile isWordChar = lang :=
    takeWhile_append_run isWordChar lang '\n' (mid ++ ticks) hl (by decide)
  rw [hrun, List.drop_left]
  have hrlen : (mid ++ ticks).length = mid.length + 3 := by simp [ticks]
  have hsub : (mid ++ ticks).length - 3 = mid.length := by omega
  have hcond : 3 ≤ (mid ++ ticks).length
      ∧ (mid ++ ticks).drop ((mid ++ ticks).length - 3) = ticks := by
    refine ⟨by omega, ?_⟩
    rw [hsub, List.drop_left]
  show (if 3 ≤ (mid ++ ticks).length
      ∧ (mid ++ ticks).drop ((mid ++ ticks).length - 3) = ticks
    then some (lang, (mid ++ ticks).take ((mid ++ ticks).length - 3)) else none)
    = some (lang, mid)
  rw [if_pos hcond, hsub, List.take_left]

/-- C10: Code-field anchoring.  `parseCodeBlock` of a well-formed fenced
block with a non-empty word-character language tag returns the inner text
trimmed together with that tag; of any other string whose trim is three
backticks, an inner text, and three backticks, it returns the inner text
trimmed with language "plaintext"; of any other string it returns the
string unchanged with language "plaintext"; and every non-highlighted
segment the code renderer emits is a substring of this fence-stripped
code, not of the raw code block — annotation offsets are interpreted
against the stripped code. -/
theorem C10_code_anchoring (lang mid block1 inner block2 : List Char)
    (cid : String) (fn : FieldName) (annots : List Annot)
    (csp : CodeSpan) (u cb : List Char)
    (hl : ∀ c ∈ lang, isWordChar c = true) (hlne : lang ≠ [])
    (hb1 : matchFence block1 = none)
    (hdec : jsTrim block1 = ticks ++ (inner ++ ticks))
    (hb2 : matchFence block2 = none)
    (hnf : ¬((jsTrim block2).take 3 = ticks
        ∧ (jsTrim block2).drop ((jsTrim block2).length - 3) = ticks))
    (hcsp : csp ∈ renderContentWithHighlights cb cid fn annots)
    (hu : csp = CodeSpan.seg u) :
    parseCodeBlock (ticks ++ lang ++ '\n' :: (mid ++ ticks)) = (lang, jsTrim mid)
    ∧ parseCodeBlock block1 = ("plaintext".toList, jsTrim inner)
    ∧ parseCodeBlock block2 = ("plaintext".toList, block2)
    ∧ u <:+: (parseCodeBlock cb).2 := by
  refine ⟨?_, ?_, ?_, ?_⟩
  · unfold parseCodeBlock
    rw [matchFence_wellformed lang mid hl]
    dsimp only
    rw [if_neg hlne]
  · unfold parseCodeBlock
    rw [hb1]
    dsimp only
    have hlen : (jsTrim block1).length = inner.length + 6 := by
      rw [hdec]; simp [ticks]
    have hc1 : (jsTrim block1).take 3 = ticks := by
      have h30 : (3 : Nat) = ticks.length := rfl
      rw [hdec, h30, List.take_left]
    have hc2 : (jsTrim block1).drop ((jsTrim block1).length - 3) = ticks := by
      rw [hlen, hdec]
      have hd1 : inner.length + 6 - 3 = ticks.length + inner.length := by
        simp [ticks]
        omega
      rw [hd1, List.drop_append, List.drop_left]
    rw [if_pos ⟨hc1, hc2⟩]
    have hslice : ((jsTrim block1).take ((jsTrim block1).length - 3)).drop 3
        = inner := by
      rw [hlen, hdec]
      have hh1 : inner.length + 6 - 3 = ticks.length + inner.length := by
        simp [ticks]
        omega
      rw [hh1, List.take_append, List.take_left]
      have hh2 : (3 : Nat) = ticks.length := rfl
      rw [hh2, List.drop_left]
    rw [hslice]
  · unfold parseCodeBlock
    rw [hb2]
    dsimp only
    rw [if_neg hnf]
  · subst hu
    exact renderContent_seg_sub hcsp

/-- C10 witness: the anchoring facts at a fenced block with tag "js", a
bare-fence block, a plain block, and a one-segment code render. -/
theorem C10_code_anchoring_witness :
    parseCodeBlock (ticks ++ "js".toList ++ '\n' :: ("x".toList ++ ticks))
      = ("js".toList, jsTrim "x".toList)
    ∧ parseCodeBlock "``` hey ```".toList
      = ("plaintext".toList, jsTrim " hey ".toList)
    ∧ parseCodeBlock "plain".toList = ("plaintext".toList, "plain".toList)
    ∧ "x".toList <:+: (parseCodeBlock "x".toList).2 :=
  C10_code_anchoring "js".toList "x".toList "``` hey ```".toList " hey ".toList
    "plain".toList "c1" FieldName.codeExample [] (CodeSpan.seg "x".toList)
    "x".toList "x".toList (by decide) (by decide) (by decide) (by decide)
    (by decide) (by decide) (by decide) rfl

end EmberHacks
